import Mathlib

/-!
Verification of the NCHU course-crawler recovery pipeline
(`src/course_crawler.py`, class `NCHUCourseCrawler`).

The Python source is shallowly embedded below.  Text is modelled as
`List Char` (Python `str` is a sequence of code points).  The pieces are:

* `stripControl`, `boundaryTrim` — `_clean_json_text` (lines 57–83);
* `repair1F`, `repair2F`, `repairCommonCorruption` — `_repair_common_corruption`
  (lines 85–98), embedding the two `re.sub` calls as single left-to-right
  passes over the text, exactly as `re.sub` behaves;
* `parseJ` / `json_loads` — a strict JSON parser modelling Python's
  `json.loads` grammar (strict strings, no trailing commas, number lexemes
  kept verbatim; the nonstandard `NaN`/`Infinity` constants and surrogate-pair
  joining are omitted — no statement below depends on them);
* `rescueCand`, `pyRfindSlice` — the `re.search(r'\{.*\}', …, re.S)` rescue
  and the `[:rfind('}')+1]` truncation in `fetch_course_data` (lines 152–167);
* `recover` — the parse portion of `fetch_course_data` (lines 142–171);
* `fetchCourseData`, `crawlAllCareers` — the orchestrator
  (`crawl_all_careers`, lines 216–247), abstracted over the HTTP transport
  and the file-save operations.
-/

/-- JSON values as produced by the parser.  Numbers keep their source lexeme
(the grammar is checked; no claim below inspects numeric magnitude), strings
hold their decoded contents, object fields are kept in source order. -/
inductive JVal where
  | null : JVal
  | bool (b : Bool) : JVal
  | num (lexeme : List Char) : JVal
  | str (chars : List Char) : JVal
  | arr (elems : List JVal) : JVal
  | obj (fields : List (List Char × JVal)) : JVal

/-- Outcome of one recovery-pipeline invocation: either a parsed document or
a failure carrying the text that gets archived (`_save_raw_response`). -/
inductive RecoveryOutcome where
  | ok (doc : JVal) : RecoveryOutcome
  | failed (archived : List Char) : RecoveryOutcome

/-- Characters matched by the Python regex class `[\x00-\x1f\x7f-\x9f]`
(`_clean_json_text`, line 68). -/
def isCtrlChar (c : Char) : Bool :=
  c.toNat ≤ 31 || (127 ≤ c.toNat && c.toNat ≤ 159)

/-- `re.sub(r'[\x00-\x1f\x7f-\x9f]', '', text)`: drop all control characters. -/
def stripControl (s : List Char) : List Char :=
  s.filter (fun c => !isCtrlChar c)

/-- Index of the first element satisfying `p` (Python `str.find`). -/
def firstIdx (p : Char → Bool) : List Char → Option Nat
  | [] => none
  | c :: t => if p c then some 0 else (firstIdx p t).map (· + 1)

/-- Index of the last element satisfying `p` (Python `str.rfind`). -/
def lastIdx (p : Char → Bool) : List Char → Option Nat
  | [] => none
  | c :: t =>
    match lastIdx p t with
    | some i => some (i + 1)
    | none => if p c then some 0 else none

/-- The trimming part of `_clean_json_text` (lines 70–83): truncate after the
last `'}'` when one exists, then drop everything before the first `'{'` when
it occurs at a positive index. -/
def boundaryTrim (s : List Char) : List Char :=
  let trimmed :=
    match lastIdx (fun c => c = '}') s with
    | some i => s.take (i + 1)
    | none => s
  match firstIdx (fun c => c = '{') trimmed with
  | some i => if 0 < i then trimmed.drop i else trimmed
  | none => trimmed

/-- `_clean_json_text` in full: control-character strip, then boundary trim. -/
def cleanJsonText (s : List Char) : List Char :=
  boundaryTrim (stripControl s)

/-- Python `\s` for the default `str` patterns: the exact set of code points
`re.match` accepts for `\s` in CPython — the ASCII whitespace range
0x09-0x0D, the information separators 0x1C-0x1F, the space 0x20, and the
Unicode whitespace characters 0x85, 0xA0, 0x1680, 0x2000-0x200A, 0x2028,
0x2029, 0x202F, 0x205F and 0x3000. -/
def isPySpace (c : Char) : Bool :=
  (9 ≤ c.toNat && c.toNat ≤ 13) || (28 ≤ c.toNat && c.toNat ≤ 32) ||
  c.toNat = 0x85 || c.toNat = 0xa0 || c.toNat = 0x1680 ||
  (0x2000 ≤ c.toNat && c.toNat ≤ 0x200a) ||
  c.toNat = 0x2028 || c.toNat = 0x2029 || c.toNat = 0x202f ||
  c.toNat = 0x205f || c.toNat = 0x3000

/-- One left-to-right pass of `re.sub(r'\[\s*,+\s*', '[', text)`
(`_repair_common_corruption`, line 95): a `'['` followed by whitespace, at
least one comma and trailing whitespace collapses to `'['`; scanning resumes
after the matched span.  The fuel argument only forces structural recursion;
`repairCommonCorruption` supplies enough for the pass to finish. -/
def repair1F : Nat → List Char → List Char
  | 0, _ => []
  | f + 1, s =>
    match s with
    | [] => []
    | c :: rest =>
      if c = '[' ∧ (rest.dropWhile isPySpace).head? = some ',' then
        c :: repair1F f
          (((rest.dropWhile isPySpace).dropWhile (fun x => x = ',')).dropWhile isPySpace)
      else
        c :: repair1F f rest

/-- One left-to-right pass of `re.sub(r',\s*,+', ',', text)` (line 97): a
comma followed by whitespace and at least one more comma collapses to a
single comma; scanning resumes after the matched span. -/
def repair2F : Nat → List Char → List Char
  | 0, _ => []
  | f + 1, s =>
    match s with
    | [] => []
    | c :: rest =>
      if c = ',' ∧ (rest.dropWhile isPySpace).head? = some ',' then
        c :: repair2F f ((rest.dropWhile isPySpace).dropWhile (fun x => x = ','))
      else
        c :: repair2F f rest

/-- `_repair_common_corruption` (lines 85–98): the bracket-comma pass, then
the doubled-comma pass, each applied once. -/
def repairCommonCorruption (s : List Char) : List Char :=
  let r1 := repair1F (s.length + 1) s
  repair2F (r1.length + 1) r1

/-- `True` when the text still contains a match of `\[\s*,+` — i.e. the
pattern targeted by the first repair rule. -/
def hasBracketCommaPat : List Char → Bool
  | [] => false
  | c :: rest =>
    if c = '[' ∧ (rest.dropWhile isPySpace).head? = some ',' then true
    else hasBracketCommaPat rest

/-- `True` when the text still contains a match of `,\s*,` — i.e. the
pattern targeted by the second repair rule. -/
def hasCommaCommaPat : List Char → Bool
  | [] => false
  | c :: rest =>
    if c = ',' ∧ (rest.dropWhile isPySpace).head? = some ',' then true
    else hasCommaCommaPat rest

/-- `True` when the text contains two commas with nothing in between. -/
def hasAdjacentCommas : List Char → Bool
  | [] => false
  | c :: t => if c = ',' ∧ t.head? = some ',' then true else hasAdjacentCommas t

/-- JSON inter-token whitespace (`json.decoder.WHITESPACE`: space, tab,
newline, carriage return). -/
def jsonWs (c : Char) : Bool :=
  c = ' ' || c = '\t' || c = '\n' || c = '\r'

/-- Skip JSON inter-token whitespace. -/
def skipWs (s : List Char) : List Char :=
  s.dropWhile jsonWs

/-- Value of a hexadecimal digit. -/
def hexVal (c : Char) : Nat :=
  if c.isDigit then c.toNat - 48
  else if 'a' ≤ c ∧ c ≤ 'f' then c.toNat - 87
  else if 'A' ≤ c ∧ c ≤ 'F' then c.toNat - 55
  else 0

/-- Hexadecimal digit test. -/
def isHexDigitChar (c : Char) : Bool :=
  c.isDigit || ('a' ≤ c && c ≤ 'f') || ('A' ≤ c && c ≤ 'F')

/-- Decoding of a single-character string escape (`json.decoder.BACKSLASH`). -/
def escChar (c : Char) : Option Char :=
  if c = '"' then some '"'
  else if c = '\\' then some '\\'
  else if c = '/' then some '/'
  else if c = 'b' then some (Char.ofNat 8)
  else if c = 'f' then some (Char.ofNat 12)
  else if c = 'n' then some '\n'
  else if c = 'r' then some '\r'
  else if c = 't' then some '\t'
  else none

/-- Strict JSON string scanning (`json.decoder.py_scanstring`, `strict=True`):
the input starts right after the opening quote; returns the decoded contents
and the rest after the closing quote.  Unescaped characters below `0x20` are
rejected; `\uXXXX` decodes to the code point (surrogate pairs are not joined,
which no statement below depends on). -/
def parseStringBody : Nat → List Char → Option (List Char × List Char)
  | 0, _ => none
  | f + 1, s =>
    match s with
    | [] => none
    | c :: rest =>
      if c = '"' then some ([], rest)
      else if c = '\\' then
        match rest with
        | [] => none
        | e :: r2 =>
          if e = 'u' then
            match r2 with
            | h1 :: h2 :: h3 :: h4 :: r3 =>
              if isHexDigitChar h1 ∧ isHexDigitChar h2 ∧ isHexDigitChar h3 ∧ isHexDigitChar h4 then
                match parseStringBody f r3 with
                | some (cs, r) =>
                  some (Char.ofNat
                    (hexVal h1 * 4096 + hexVal h2 * 256 + hexVal h3 * 16 + hexVal h4) :: cs, r)
                | none => none
              else none
            | _ => none
          else
            match escChar e with
            | some ec =>
              match parseStringBody f r2 with
              | some (cs, r) => some (ec :: cs, r)
              | none => none
            | none => none
      else if c.toNat < 32 then none
      else
        match parseStringBody f rest with
        | some (cs, r) => some (c :: cs, r)
        | none => none

/-- The integer part of `json.scanner.NUMBER_RE`: `0` or `[1-9][0-9]*`,
returning the lexeme and the rest. -/
def parseIntPart : List Char → Option (List Char × List Char)
  | [] => none
  | c :: r =>
    if c = '0' then some (['0'], r)
    else if c.isDigit then some (c :: r.takeWhile Char.isDigit, r.dropWhile Char.isDigit)
    else none

/-- The optional fraction part `\.[0-9]+`; when absent nothing is consumed. -/
def parseFrac (s : List Char) : List Char × List Char :=
  match s with
  | '.' :: r =>
    let ds := r.takeWhile Char.isDigit
    if ds = [] then ([], s) else ('.' :: ds, r.dropWhile Char.isDigit)
  | _ => ([], s)

/-- The optional exponent part `[eE][+-]?[0-9]+`; when absent nothing is
consumed. -/
def parseExp (s : List Char) : List Char × List Char :=
  match s with
  | [] => ([], [])
  | c :: r =>
    if c = 'e' ∨ c = 'E' then
      let sr : List Char × List Char :=
        match r with
        | s2 :: r2 => if s2 = '+' ∨ s2 = '-' then ([s2], r2) else ([], r)
        | [] => ([], r)
      let ds := sr.2.takeWhile Char.isDigit
      if ds = [] then ([], c :: r) else (c :: sr.1 ++ ds, sr.2.dropWhile Char.isDigit)
    else ([], c :: r)

/-- Full number token per `json.scanner.NUMBER_RE`
(`-?(0|[1-9][0-9]*)(\.[0-9]+)?([eE][+-]?[0-9]+)?`). -/
def parseNumber (s : List Char) : Option (List Char × List Char) :=
  let ns : List Char × List Char :=
    match s with
    | '-' :: r => (['-'], r)
    | _ => ([], s)
  match parseIntPart ns.2 with
  | none => none
  | some (ip, r1) =>
    let fr := parseFrac r1
    let ex := parseExp fr.2
    some (ns.1 ++ ip ++ fr.1 ++ ex.1, ex.2)

/-- Parser mode: a single value, the element list of an array (after at least
one element is known to follow), or the field list of an object. -/
inductive PMode where
  | val : PMode
  | elems : PMode
  | fields : PMode

/-- Recursive-descent strict JSON parser modelling Python's
`json.scanner.py_make_scanner` grammar.  `acc`/`facc` accumulate the already
parsed elements/fields of the enclosing array/object in `elems`/`fields`
mode.  The fuel argument only forces structural recursion; `json_loads`
supplies more than the maximum possible recursion depth. -/
def parseJ : Nat → PMode → List JVal → List (List Char × JVal) → List Char →
    Option (JVal × List Char)
  | 0, _, _, _, _ => none
  | f + 1, PMode.val, _, _, s =>
    match s with
    | [] => none
    | c :: rest =>
      if c = '{' then
        let s1 := skipWs rest
        if s1.head? = some '}' then some (JVal.obj [], s1.tail)
        else parseJ f PMode.fields [] [] s1
      else if c = '[' then
        let s1 := skipWs rest
        if s1.head? = some ']' then some (JVal.arr [], s1.tail)
        else parseJ f PMode.elems [] [] s1
      else if c = '"' then
        match parseStringBody (rest.length + 1) rest with
        | some (cs, r) => some (JVal.str cs, r)
        | none => none
      else if c = 't' then
        match rest with
        | 'r' :: 'u' :: 'e' :: r => some (JVal.bool true, r)
        | _ => none
      else if c = 'f' then
        match rest with
        | 'a' :: 'l' :: 's' :: 'e' :: r => some (JVal.bool false, r)
        | _ => none
      else if c = 'n' then
        match rest with
        | 'u' :: 'l' :: 'l' :: r => some (JVal.null, r)
        | _ => none
      else if c = '-' ∨ c.isDigit then
        match parseNumber (c :: rest) with
        | some (lex, r) => some (JVal.num lex, r)
        | none => none
      else none
  | f + 1, PMode.elems, acc, _, s =>
    match parseJ f PMode.val [] [] s with
    | none => none
    | some (v, r) =>
      match skipWs r with
      | ',' :: r2 => parseJ f PMode.elems (acc ++ [v]) [] (skipWs r2)
      | ']' :: r2 => some (JVal.arr (acc ++ [v]), r2)
      | _ => none
  | f + 1, PMode.fields, _, facc, s =>
    match s with
    | '"' :: rest =>
      match parseStringBody (rest.length + 1) rest with
      | none => none
      | some (k, r) =>
        match skipWs r with
        | ':' :: r2 =>
          match parseJ f PMode.val [] [] (skipWs r2) with
          | none => none
          | some (v, r3) =>
            match skipWs r3 with
            | ',' :: r4 => parseJ f PMode.fields [] (facc ++ [(k, v)]) (skipWs r4)
            | '}' :: r4 => some (JVal.obj (facc ++ [(k, v)]), r4)
            | _ => none
        | _ => none
    | _ => none

/-- Python `json.loads`: skip leading whitespace, parse one value, require
only whitespace to remain (`Extra data` otherwise). -/
def json_loads (s : List Char) : Option JVal :=
  let s1 := skipWs s
  match parseJ (3 * s1.length + 8) PMode.val [] [] s1 with
  | some (v, r) => if skipWs r = [] then some v else none
  | none => none

/-- `re.search(r'\{.*\}', s, flags=re.S)` (line 155): the leftmost match
starts at the first `'{'` that has some `'}'` strictly after it, and the
greedy `.*` extends the match to the last `'}'` of the whole text.  The
first `'{'` with a later `'}'` is exactly the first `'{'` strictly before
the last `'}'`. -/
def rescueCand (s : List Char) : Option (List Char) :=
  match lastIdx (fun c => c = '}') s with
  | none => none
  | some j =>
    match firstIdx (fun c => c = '{') (s.take j) with
    | none => none
    | some i => some ((s.take (j + 1)).drop i)

/-- `rescue_text[:rescue_text.rfind('}') + 1]` (line 159): truncate after the
last `'}'`; when there is none, Python's `rfind` returns `-1` and the slice
`[:0]` is empty. -/
def pyRfindSlice (s : List Char) : List Char :=
  match lastIdx (fun c => c = '}') s with
  | some i => s.take (i + 1)
  | none => []

/-- The parsing portion of `fetch_course_data` (lines 142–171): clean, repair,
strict parse; on failure attempt the rescue extraction on the *cleaned* text;
on terminal failure archive the original raw text (`_save_raw_response` is
called with `response.text`). -/
def recover (raw : List Char) : RecoveryOutcome :=
  let cleaned := cleanJsonText raw
  let repaired := repairCommonCorruption cleaned
  match json_loads repaired with
  | some v => RecoveryOutcome.ok v
  | none =>
    match rescueCand cleaned with
    | some m =>
      match json_loads (pyRfindSlice m) with
      | some v => RecoveryOutcome.ok v
      | none => RecoveryOutcome.failed raw
    | none => RecoveryOutcome.failed raw

/-- The fixed career table (`self.career_mapping`, lines 29–36): codes with
their labels, in iteration order. -/
def careerMapping : List (String × String) :=
  [("U", "學士班"), ("O", "通識加體育課"), ("N", "進修部"),
   ("W", "在職專班"), ("G", "碩士班"), ("D", "博士班")]

/-- `fetch_course_data` (lines 121–187) abstracted over the HTTP transport:
`transport c = none` models a network error or non-200 status (both produce
`None` without invoking the pipeline); on a body, the recovery pipeline runs
and a terminal recovery failure also produces `None`. -/
def fetchCourseData (transport : String → Option (List Char)) (career : String) :
    Option JVal :=
  match transport career with
  | none => none
  | some body =>
    match recover body with
    | RecoveryOutcome.ok v => some v
    | RecoveryOutcome.failed _ => none

/-- State built up by one pass of `crawl_all_careers`: the per-label report
(`results`) and the persisted documents (`save_course_data` writes that
succeeded). -/
structure CrawlState where
  report : List (String × Bool)
  saved : List (String × JVal)

/-- One iteration of the loop in `crawl_all_careers` (lines 229–243): fetch,
then on data save it and record the save result under the career label,
otherwise record `false`. -/
def crawlStep (fetchData : String → Option JVal) (save : String → JVal → Bool)
    (st : CrawlState) (p : String × String) : CrawlState :=
  match fetchData p.1 with
  | some d =>
    { report := st.report ++ [(p.2, save p.1 d)],
      saved := st.saved ++ (if save p.1 d then [(p.1, d)] else []) }
  | none => { report := st.report ++ [(p.2, false)], saved := st.saved }

/-- `crawl_all_careers` (lines 216–247), abstracted over the transport and the
file-save operation (`save c d = true` models a successful
`save_course_data`). -/
def crawlAllCareers (transport : String → Option (List Char))
    (save : String → JVal → Bool) : CrawlState :=
  careerMapping.foldl (crawlStep (fetchCourseData transport) save) ⟨[], []⟩

/-- Modelled from the spec (claim C4): trimming as the claim describes it —
the contiguous substring from the earliest `'{'` **or** `'['` to the latest
`'}'` **or** `']'`, a no-op when neither delimiter occurs. -/
def claimedBoundaryTrim (s : List Char) : List Char :=
  match firstIdx (fun c => c = '{' || c = '[') s,
        lastIdx (fun c => c = '}' || c = ']') s with
  | some i, some j => (s.take (j + 1)).drop i
  | _, _ => s

/-- Restatement of `boundaryTrim` for the amended C4: truncate after the last
`'}'` when one exists, then drop everything before the first `'{'`; the array
delimiters play no role. -/
def amendedBoundaryTrim (s : List Char) : List Char :=
  let t :=
    match lastIdx (fun c => c = '}') s with
    | some i => s.take (i + 1)
    | none => s
  match firstIdx (fun c => c = '{') t with
  | some i => t.drop i
  | none => t

/-- Modelled from the spec (claim C7): the rescue span as the spec describes
it — from the first `'{'` of the stage-2 text through the last `'}'`,
provided the first `'{'` lies before the last `'}'`. -/
def rescueSpanSpec (s : List Char) : Option (List Char) :=
  match firstIdx (fun c => c = '{') s, lastIdx (fun c => c = '}') s with
  | some i, some j => if i < j then some ((s.take (j + 1)).drop i) else none
  | _, _ => none

/-- Modelled from the spec (claim C7): the whole rescue stage as the spec
describes it — strict parsing of the rescue span of the stage-2 text, with no
stage-3 repair applied, failing with the original raw text otherwise. -/
def rescueStageSpec (cleaned raw : List Char) : RecoveryOutcome :=
  match rescueSpanSpec cleaned with
  | some cand =>
    match json_loads cand with
    | some v => RecoveryOutcome.ok v
    | none => RecoveryOutcome.failed raw
  | none => RecoveryOutcome.failed raw

/-!  Helper lemmas about `firstIdx` and `lastIdx`. -/

theorem firstIdx_spec {p : Char → Bool} :
    ∀ {l : List Char} {i : Nat}, firstIdx p l = some i →
      ∃ c, l[i]? = some c ∧ p c = true := by
  intro l
  induction l with
  | nil => intro i h; simp [firstIdx] at h
  | cons c t ih =>
    intro i h
    by_cases hc : p c
    · simp [firstIdx, hc] at h
      subst h
      exact ⟨c, by simp, hc⟩
    · simp [firstIdx, hc] at h
      obtain ⟨j, hj, rfl⟩ := h
      obtain ⟨d, hd, hpd⟩ := ih hj
      exact ⟨d, by simpa using hd, hpd⟩

theorem firstIdx_lt_length {p : Char → Bool} {l : List Char} {i : Nat}
    (h : firstIdx p l = some i) : i < l.length := by
  obtain ⟨c, hc, -⟩ := firstIdx_spec h
  exact (List.getElem?_eq_some.mp hc).1

theorem firstIdx_head {p : Char → Bool} {c : Char} {t : List Char}
    (h : p c = true) : firstIdx p (c :: t) = some 0 := by
  simp [firstIdx, h]

theorem firstIdx_take {p : Char → Bool} :
    ∀ (l : List Char) (n : Nat),
      firstIdx p (l.take n) =
        match firstIdx p l with
        | some i => if i < n then some i else none
        | none => none := by
  intro l
  induction l with
  | nil => intro n; simp [firstIdx]
  | cons c t ih =>
    intro n
    cases n with
    | zero =>
      cases h : firstIdx p (c :: t) with
      | none => simp [List.take_zero, h, firstIdx]
      | some i => simp [List.take_zero, h, firstIdx]
    | succ n =>
      simp only [List.take_succ_cons, firstIdx]
      by_cases hc : p c
      · simp [hc]
      · simp only [hc, if_false, ih]
        cases h : firstIdx p t with
        | none => rfl
        | some i =>
          by_cases hin : i < n
          · simp [hin, Nat.succ_lt_succ hin]
          · simp [hin, fun h => hin (Nat.lt_of_succ_lt_succ h)]

theorem lastIdx_spec {p : Char → Bool} :
    ∀ {l : List Char} {i : Nat}, lastIdx p l = some i →
      ∃ c, l[i]? = some c ∧ p c = true := by
  intro l
  induction l with
  | nil => intro i h; simp [lastIdx] at h
  | cons c t ih =>
    intro i h
    rw [lastIdx] at h
    cases ht : lastIdx p t with
    | some j =>
      rw [ht] at h
      cases h
      obtain ⟨d, hd, hpd⟩ := ih ht
      exact ⟨d, by simpa using hd, hpd⟩
    | none =>
      rw [ht] at h
      by_cases hc : p c
      · simp [hc] at h
        subst h
        exact ⟨c, by simp, hc⟩
      · simp [hc] at h

theorem lastIdx_lt_length {p : Char → Bool} {l : List Char} {i : Nat}
    (h : lastIdx p l = some i) : i < l.length := by
  obtain ⟨c, hc, -⟩ := lastIdx_spec h
  exact (List.getElem?_eq_some.mp hc).1

theorem lastIdx_getLast {p : Char → Bool} :
    ∀ {l : List Char} {c : Char}, l.getLast? = some c → p c = true →
      lastIdx p l = some (l.length - 1) := by
  intro l
  induction l with
  | nil => intro c h; simp at h
  | cons a t ih =>
    intro c h hp
    cases t with
    | nil =>
      simp at h
      subst h
      simp [lastIdx, hp]
    | cons b u =>
      rw [List.getLast?_cons_cons] at h
      have ht := ih h hp
      rw [lastIdx, ht]
      rfl

theorem lastIdx_none_of_all {p : Char → Bool} :
    ∀ {l : List Char}, (∀ c ∈ l, p c = false) → lastIdx p l = none := by
  intro l
  induction l with
  | nil => intro _; rfl
  | cons a t ih =>
    intro h
    rw [lastIdx, ih (fun c hc => h c (List.mem_cons_of_mem a hc))]
    simp [h a (List.mem_cons_self a t)]

theorem firstIdx_none_of_all {p : Char → Bool} :
    ∀ {l : List Char}, (∀ c ∈ l, p c = false) → firstIdx p l = none := by
  intro l
  induction l with
  | nil => intro _; rfl
  | cons a t ih =>
    intro h
    rw [firstIdx]
    simp [h a (List.mem_cons_self a t),
      ih (fun c hc => h c (List.mem_cons_of_mem a hc))]

/-!  Helper lemmas about the repair passes. -/

theorem head?_dropWhile_false {p : Char → Bool} :
    ∀ {l : List Char} {a : Char}, (l.dropWhile p).head? = some a → p a = false := by
  intro l
  induction l with
  | nil => intro a h; simp at h
  | cons c t ih =>
    intro a h
    rw [List.dropWhile_cons] at h
    by_cases hc : p c
    · exact ih (by simpa [hc] using h)
    · simp [hc] at h
      subst h
      simpa using hc

theorem repair1F_id :
    ∀ (f : Nat) (s : List Char), s.length < f → hasBracketCommaPat s = false →
      repair1F f s = s := by
  intro f
  induction f with
  | zero => intro s hs _; exact absurd hs (Nat.not_lt_zero _)
  | succ f ih =>
    intro s hs hp
    cases s with
    | nil => rfl
    | cons c rest =>
      rw [hasBracketCommaPat] at hp
      by_cases hc : c = '[' ∧ ((rest.dropWhile isPySpace).head? = some ',')
      · rw [if_pos hc] at hp
        exact absurd hp (by simp)
      · rw [if_neg hc] at hp
        simp only [repair1F, if_neg hc]
        rw [ih rest (by simpa using Nat.lt_of_succ_lt_succ hs) hp]

theorem repair2F_id :
    ∀ (f : Nat) (s : List Char), s.length < f → hasCommaCommaPat s = false →
      repair2F f s = s := by
  intro f
  induction f with
  | zero => intro s hs _; exact absurd hs (Nat.not_lt_zero _)
  | succ f ih =>
    intro s hs hp
    cases s with
    | nil => rfl
    | cons c rest =>
      rw [hasCommaCommaPat] at hp
      by_cases hc : c = ',' ∧ ((rest.dropWhile isPySpace).head? = some ',')
      · rw [if_pos hc] at hp
        exact absurd hp (by simp)
      · rw [if_neg hc] at hp
        simp only [repair2F, if_neg hc]
        rw [ih rest (by simpa using Nat.lt_of_succ_lt_succ hs) hp]

theorem repairCommonCorruption_id {s : List Char}
    (h1 : hasBracketCommaPat s = false) (h2 : hasCommaCommaPat s = false) :
    repairCommonCorruption s = s := by
  simp only [repairCommonCorruption]
  rw [repair1F_id (s.length + 1) s (Nat.lt_succ_self _) h1]
  exact repair2F_id _ _ (Nat.lt_succ_self _) h2

theorem repair2F_nil : ∀ (f : Nat), repair2F f [] = [] := by
  intro f
  cases f <;> rfl

theorem repair2F_head? :
    ∀ (f : Nat) (s : List Char) (a : Char),
      (repair2F f s).head? = some a → s.head? = some a := by
  intro f s a h
  match f, s with
  | 0, s => simp [repair2F] at h
  | f + 1, [] => simp [repair2F] at h
  | f + 1, c :: t =>
    simp only [repair2F] at h
    split_ifs at h <;> simpa using h

theorem repair2F_noAdjacentCommas :
    ∀ (f : Nat) (s : List Char), hasAdjacentCommas (repair2F f s) = false := by
  intro f
  induction f with
  | zero => intro s; rfl
  | succ f ih =>
    intro s
    cases s with
    | nil => rfl
    | cons c t =>
      simp only [repair2F]
      by_cases hc : c = ',' ∧ ((t.dropWhile isPySpace).head? = some ',')
      · obtain ⟨hc1, hc2⟩ := hc
        subst hc1
        rw [if_pos ⟨rfl, hc2⟩, hasAdjacentCommas]
        have hno : ¬(',' = ',' ∧
            (repair2F f ((t.dropWhile isPySpace).dropWhile (fun x => x = ','))).head? =
              some ',') := by
          rintro ⟨-, hhd⟩
          have h1 := repair2F_head? f _ _ hhd
          have h2 := head?_dropWhile_false (p := fun x => x = ',') h1
          simp at h2
        rw [if_neg hno]
        exact ih _
      · rw [if_neg hc, hasAdjacentCommas]
        by_cases hcc : c = ','
        · subst hcc
          have hno : ¬(',' = ',' ∧ (repair2F f t).head? = some ',') := by
            rintro ⟨-, hhd⟩
            have h1 := repair2F_head? f _ _ hhd
            cases t with
            | nil => simp at h1
            | cons d t' =>
              simp at h1
              subst h1
              apply hc
              refine ⟨rfl, ?_⟩
              rw [List.dropWhile_cons, if_neg (by decide)]
              rfl
          rw [if_neg hno]
          exact ih t
        · rw [if_neg (by rintro ⟨h, -⟩; exact hcc h)]
          exact ih t

theorem repairCommonCorruption_noAdjacentCommas (s : List Char) :
    hasAdjacentCommas (repairCommonCorruption s) = false := by
  simp only [repairCommonCorruption]
  exact repair2F_noAdjacentCommas _ _

/-!  Helper lemmas about cleaning and trimming. -/

theorem stripControl_id {s : List Char}
    (h : s.all (fun c => !isCtrlChar c) = true) : stripControl s = s :=
  List.filter_eq_self.mpr (List.all_eq_true.mp h)

theorem boundaryTrim_id {s : List Char}
    (hh : s.head? = some '{') (hl : s.getLast? = some '}') :
    boundaryTrim s = s := by
  have hlast := lastIdx_getLast (p := fun c => c = '}') hl (by simp)
  cases s with
  | nil => simp at hh
  | cons a t =>
    simp only [List.head?_cons, Option.some.injEq] at hh
    subst hh
    simp only [boundaryTrim, hlast]
    have hlen : ('{' :: t).length - 1 + 1 = ('{' :: t).length := by
      simp
    rw [hlen, List.take_length, firstIdx_head (by simp)]
    simp

/-!  Helper lemmas about the JSON parser. -/

theorem parseJ_fields_obj :
    ∀ (f : Nat) (acc : List JVal) (facc : List (List Char × JVal))
      (s : List Char) (v : JVal) (r : List Char),
      parseJ f PMode.fields acc facc s = some (v, r) → ∃ fs, v = JVal.obj fs := by
  intro f
  induction f with
  | zero =>
    intro acc facc s v r h
    simp [parseJ] at h
  | succ f ih =>
    intro acc facc s v r h
    simp only [parseJ] at h
    split at h
    · split at h
      · exact absurd h (by simp)
      · split at h
        · split at h
          · exact absurd h (by simp)
          · split at h
            · exact ih _ _ _ _ _ h
            · simp only [Option.some.injEq, Prod.mk.injEq] at h
              exact ⟨_, h.1.symm⟩
            · exact absurd h (by simp)
        · exact absurd h (by simp)
    · exact absurd h (by simp)

theorem parseJ_val_brace_obj :
    ∀ (f : Nat) (acc : List JVal) (facc : List (List Char × JVal))
      (rest : List Char) (v : JVal) (r : List Char),
      parseJ (f + 1) PMode.val acc facc ('{' :: rest) = some (v, r) →
      ∃ fs, v = JVal.obj fs := by
  intro f acc facc rest v r h
  simp only [parseJ, if_true] at h
  by_cases hb : (skipWs rest).head? = some '}'
  · rw [if_pos hb] at h
    simp only [Option.some.injEq, Prod.mk.injEq] at h
    exact ⟨[], h.1.symm⟩
  · rw [if_neg hb] at h
    exact parseJ_fields_obj _ _ _ _ _ _ h

theorem json_loads_obj_of_brace :
    ∀ {s : List Char} {v : JVal},
      s.head? = some '{' → json_loads s = some v → ∃ fs, v = JVal.obj fs := by
  intro s v hh h
  cases s with
  | nil => simp at hh
  | cons a t =>
    simp only [List.head?_cons, Option.some.injEq] at hh
    subst hh
    have hsk : skipWs ('{' :: t) = '{' :: t := by
      rw [skipWs, List.dropWhile_cons, if_neg (by simp [jsonWs])]
    simp only [json_loads, hsk] at h
    rw [show 3 * ('{' :: t).length + 8 = (3 * ('{' :: t).length + 7) + 1 from rfl] at h
    cases hp : parseJ (3 * ('{' :: t).length + 7 + 1) PMode.val [] [] ('{' :: t) with
    | none =>
      simp only [hp] at h
      exact absurd h (by simp)
    | some pr =>
      obtain ⟨w, r⟩ := pr
      simp only [hp] at h
      by_cases hr : skipWs r = []
      · rw [if_pos hr] at h
        simp only [Option.some.injEq] at h
        subst h
        exact parseJ_val_brace_obj _ _ _ _ _ _ hp
      · rw [if_neg hr] at h
        exact absurd h (by simp)

/-!  Helper lemmas about the rescue extraction. -/

theorem rescueCand_head :
    ∀ {s m : List Char}, rescueCand s = some m → m.head? = some '{' := by
  intro s m h
  unfold rescueCand at h
  split at h
  · exact absurd h (by simp)
  · rename_i j hj
    split at h
    · exact absurd h (by simp)
    · rename_i i hi
      simp only [Option.some.injEq] at h
      subst h
      obtain ⟨c, hc, hpc⟩ := firstIdx_spec hi
      have hilen := firstIdx_lt_length hi
      simp only [List.length_take] at hilen
      have hij : i < j := lt_of_lt_of_le hilen (min_le_left _ _)
      rw [List.head?_drop, List.getElem?_take_of_lt (by omega)]
      rw [List.getElem?_take_of_lt hij] at hc
      simp only [decide_eq_true_eq] at hpc
      subst hpc
      exact hc

theorem rescueCand_getLast :
    ∀ {s m : List Char}, rescueCand s = some m → m.getLast? = some '}' := by
  intro s m h
  unfold rescueCand at h
  split at h
  · exact absurd h (by simp)
  · rename_i j hj
    split at h
    · exact absurd h (by simp)
    · rename_i i hi
      simp only [Option.some.injEq] at h
      subst h
      obtain ⟨c, hc, hpc⟩ := lastIdx_spec hj
      simp only [decide_eq_true_eq] at hpc
      subst hpc
      have hjlen : j < s.length := lastIdx_lt_length hj
      have hilen := firstIdx_lt_length hi
      simp only [List.length_take] at hilen
      have hij : i < j := lt_of_lt_of_le hilen (min_le_left _ _)
      have hlen1 : (s.take (j + 1)).length = j + 1 := by
        simp [List.length_take]
        omega
      rw [List.getLast?_eq_getElem?]
      have hlen2 : ((s.take (j + 1)).drop i).length = j + 1 - i := by
        simp [hlen1]
      rw [hlen2, List.getElem?_drop, List.getElem?_take_of_lt (by omega)]
      have : i + (j + 1 - i - 1) = j := by omega
      rw [this]
      exact hc

theorem pyRfindSlice_of_getLast :
    ∀ {m : List Char}, m.getLast? = some '}' → pyRfindSlice m = m := by
  intro m h
  have hne : m ≠ [] := by
    intro he
    subst he
    simp at h
  have hlast := lastIdx_getLast (p := fun c => c = '}') h (by simp)
  rw [pyRfindSlice, hlast]
  show m.take (m.length - 1 + 1) = m
  have hl1 : m.length - 1 + 1 = m.length := by
    have : 0 < m.length := List.length_pos.mpr hne
    omega
  rw [hl1, List.take_length]

theorem rescueCand_eq_spanSpec (s : List Char) : rescueCand s = rescueSpanSpec s := by
  cases hj : lastIdx (fun c => c = '}') s with
  | none =>
    cases hfi : firstIdx (fun c => c = '{') s with
    | none => simp [rescueCand, rescueSpanSpec, hj, hfi]
    | some i => simp [rescueCand, rescueSpanSpec, hj, hfi]
  | some j =>
    have ht := firstIdx_take (p := fun c => c = '{') s j
    cases hfi : firstIdx (fun c => c = '{') s with
    | none =>
      rw [hfi] at ht
      simp only at ht
      simp [rescueCand, rescueSpanSpec, hj, ht, hfi]
    | some i =>
      rw [hfi] at ht
      simp only at ht
      by_cases hij : i < j
      · simp [rescueCand, rescueSpanSpec, hj, ht, hfi, hij]
      · simp [rescueCand, rescueSpanSpec, hj, ht, hfi, hij]

/-!  Helper lemmas about the orchestrator loop. -/

theorem crawlStep_mem_report {x : String × Bool} {fetchData : String → Option JVal}
    {save : String → JVal → Bool} {st : CrawlState} {p : String × String}
    (h : x ∈ st.report) : x ∈ (crawlStep fetchData save st p).report := by
  unfold crawlStep
  cases hf : fetchData p.1 <;> simp [h]

theorem crawlStep_mem_saved {x : String × JVal} {fetchData : String → Option JVal}
    {save : String → JVal → Bool} {st : CrawlState} {p : String × String}
    (h : x ∈ st.saved) : x ∈ (crawlStep fetchData save st p).saved := by
  unfold crawlStep
  cases hf : fetchData p.1 <;> simp [h]

theorem foldl_crawl_mem_report {x : String × Bool} {fetchData : String → Option JVal}
    {save : String → JVal → Bool} :
    ∀ (l : List (String × String)) (st : CrawlState), x ∈ st.report →
      x ∈ (l.foldl (crawlStep fetchData save) st).report := by
  intro l
  induction l with
  | nil => intro st h; simpa using h
  | cons q l ih =>
    intro st h
    rw [List.foldl_cons]
    exact ih _ (crawlStep_mem_report h)

theorem foldl_crawl_mem_saved {x : String × JVal} {fetchData : String → Option JVal}
    {save : String → JVal → Bool} :
    ∀ (l : List (String × String)) (st : CrawlState), x ∈ st.saved →
      x ∈ (l.foldl (crawlStep fetchData save) st).saved := by
  intro l
  induction l with
  | nil => intro st h; simpa using h
  | cons q l ih =>
    intro st h
    rw [List.foldl_cons]
    exact ih _ (crawlStep_mem_saved h)

theorem foldl_crawl_success_mem {fetchData : String → Option JVal}
    {save : String → JVal → Bool} {c label : String} {d : JVal} :
    ∀ (l : List (String × String)) (st : CrawlState), (c, label) ∈ l →
      fetchData c = some d → save c d = true →
      (label, true) ∈ (l.foldl (crawlStep fetchData save) st).report ∧
      (c, d) ∈ (l.foldl (crawlStep fetchData save) st).saved := by
  intro l
  induction l with
  | nil => intro st h; simp at h
  | cons q l ih =>
    intro st hmem hf hs
    rw [List.foldl_cons]
    rcases List.mem_cons.mp hmem with heq | hmem'
    · constructor
      · apply foldl_crawl_mem_report
        simp [crawlStep, ← heq, hf, hs]
      · apply foldl_crawl_mem_saved
        simp [crawlStep, ← heq, hf, hs]
    · exact ih _ hmem' hf hs

/-- Claim C6: for every input on which all parse attempts fail, the failure
outcome archives the original raw input text unmodified — `fetch_course_data`
always passes `response.text` (the raw input), never a cleaned, repaired or
rescued intermediate, to `_save_raw_response`. -/
theorem recover_failure_archives_original_raw :
    ∀ (raw t : List Char), recover raw = RecoveryOutcome.failed t → t = raw := by
  intro raw t h
  simp only [recover] at h
  split at h
  · exact absurd h (by simp)
  · split at h
    · split at h
      · exact absurd h (by simp)
      · injection h with h1
        exact h1.symm
    · injection h with h1
      exact h1.symm

/-- Witness for C6: pure prose with no structural delimiter fails and the
archived text is the original input. -/
theorem recover_failure_archives_original_raw_witness :
    recover ("no structured data here at all".toList) =
      RecoveryOutcome.failed ("no structured data here at all".toList) ∧
    "no structured data here at all".toList = "no structured data here at all".toList :=
  ⟨rfl, recover_failure_archives_original_raw _ _ rfl⟩

/-- Claim C2 counterexample: on input `"\x01[1,,2, ]"` the pipeline does not
yield the array `[1, 2]` — the code has no trailing-comma repair rule, so the
repaired text `[1,2, ]` is rejected by the strict parser, the rescue finds no
object span, and recovery fails. -/
theorem recover_control_comma_array_cex :
    recover ("\x01[1,,2, ]".toList) ≠
      RecoveryOutcome.ok (JVal.arr [JVal.num ['1'], JVal.num ['2']]) := by
  intro h
  rw [show recover ("\x01[1,,2, ]".toList) =
      RecoveryOutcome.failed ("\x01[1,,2, ]".toList) from rfl] at h
  exact RecoveryOutcome.noConfusion h

/-- Claim C2 amended: on input `"\x01[1,,2, ]"` the control byte is stripped
and the doubled comma collapsed, producing `[1,2, ]`, but the trailing comma
before `]` is not removed (no such rule exists in
`_repair_common_corruption`); the strict parse fails, no rescue span exists,
and `recover` fails archiving the original input. -/
theorem recover_control_comma_array_amended :
    repairCommonCorruption (cleanJsonText ("\x01[1,,2, ]".toList)) = "[1,2, ]".toList ∧
    recover ("\x01[1,,2, ]".toList) =
      RecoveryOutcome.failed ("\x01[1,,2, ]".toList) :=
  ⟨rfl, rfl⟩

/-- Claim C3 counterexample: on input `{"a":, "b":1}` the pipeline does not
yield `{"a": null, "b": 1}` — stage 3 has no null-insertion rule. -/
theorem recover_missing_value_cex :
    recover ("\x7b\"a\":, \"b\":1\x7d".toList) ≠
      RecoveryOutcome.ok (JVal.obj [(['a'], JVal.null), (['b'], JVal.num ['1'])]) := by
  intro h
  rw [show recover ("\x7b\"a\":, \"b\":1\x7d".toList) =
      RecoveryOutcome.failed ("\x7b\"a\":, \"b\":1\x7d".toList) from rfl] at h
  exact RecoveryOutcome.noConfusion h

/-- Claim C3 amended: `_repair_common_corruption` has only the bracket-comma
and doubled-comma rules; a colon followed by a comma is left untouched, both
the primary and the rescue parse of `{"a":, "b":1}` fail, and `recover` fails
archiving the original input. -/
theorem recover_missing_value_amended :
    recover ("\x7b\"a\":, \"b\":1\x7d".toList) =
      RecoveryOutcome.failed ("\x7b\"a\":, \"b\":1\x7d".toList) :=
  rfl

/-- Claim C5 counterexample: the claim asserts each substitution is iterated
to a fixpoint so that no stray-comma-after-`[` pattern survives stage 3; on
`[ , , , 1]` a single `re.sub` pass leaves `[, 1]`, which still contains a
comma right after the opening bracket. -/
theorem repair_fixpoint_cex :
    repairCommonCorruption ("[ , , , 1]".toList) = "[, 1]".toList ∧
    hasBracketCommaPat (repairCommonCorruption ("[ , , , 1]".toList)) = true :=
  ⟨rfl, rfl⟩

/-- Claim C5 amended: each substitution is applied in one left-to-right pass
(`re.sub` replaces all non-overlapping matches once, it is not iterated), so
whitespace-interleaved residues can survive — `[ , , , 1]` repairs to
`[, 1]` — while runs of commas with no interleaved whitespace do collapse:
the doubled-comma pass never leaves two directly adjacent commas. -/
theorem repair_single_pass_amended :
    repairCommonCorruption ("[ , , , 1]".toList) = "[, 1]".toList ∧
    (∀ (f : Nat) (s : List Char), hasAdjacentCommas (repair2F f s) = false) ∧
    (∀ (s : List Char), hasAdjacentCommas (repairCommonCorruption s) = false) :=
  ⟨rfl, repair2F_noAdjacentCommas, repairCommonCorruption_noAdjacentCommas⟩

/-- Claim C1 counterexample: the pipeline is not the identity on clean input.
For the clean top-level array `[{"a":1}]`, `_clean_json_text` truncates at the
last `'}'` and drops text before the first `'{'`, so `recover` returns the
inner object, not the array.  For the clean object `{"a": ",,"}`, the
doubled-comma repair rewrites the contents of a string literal, so `recover`
returns a different document than the strict parse. -/
theorem recover_identity_clean_cex :
    (json_loads ("[\x7b\"a\":1\x7d]".toList) =
        some (JVal.arr [JVal.obj [(['a'], JVal.num ['1'])]]) ∧
      recover ("[\x7b\"a\":1\x7d]".toList) ≠
        RecoveryOutcome.ok (JVal.arr [JVal.obj [(['a'], JVal.num ['1'])]])) ∧
    (json_loads ("\x7b\"a\": \",,\"\x7d".toList) =
        some (JVal.obj [(['a'], JVal.str [',', ','])]) ∧
      recover ("\x7b\"a\": \",,\"\x7d".toList) ≠
        RecoveryOutcome.ok (JVal.obj [(['a'], JVal.str [',', ','])])) := by
  constructor
  · refine ⟨rfl, ?_⟩
    intro h
    rw [show recover ("[\x7b\"a\":1\x7d]".toList) =
        RecoveryOutcome.ok (JVal.obj [(['a'], JVal.num ['1'])]) from rfl] at h
    injection h with h1
    exact JVal.noConfusion h1
  · refine ⟨rfl, ?_⟩
    intro h
    rw [show recover ("\x7b\"a\": \",,\"\x7d".toList) =
        RecoveryOutcome.ok (JVal.obj [(['a'], JVal.str [','])]) from rfl] at h
    injection h with h1
    injection h1 with h2
    rw [List.cons.injEq] at h2
    rw [Prod.mk.injEq] at h2
    obtain ⟨⟨-, h3⟩, -⟩ := h2
    injection h3 with h4
    exact absurd h4 (by decide)

/-- Claim C1 amended: the pipeline is the identity (up to the parsed value)
on clean input that is control-character-free, begins with `'{'`, ends with
`'}'`, and contains no occurrence of the two repair patterns (`[` + optional
whitespace + comma, or comma + optional whitespace + comma, anywhere — also
inside string literals): for such input a successful strict parse is returned
unchanged by `recover`.  Clean top-level arrays are not preserved (see the
counterexample). -/
theorem recover_identity_on_clean_objects :
    ∀ (s : List Char) (v : JVal),
      s.all (fun c => !isCtrlChar c) = true →
      s.head? = some '{' →
      s.getLast? = some '}' →
      hasBracketCommaPat s = false →
      hasCommaCommaPat s = false →
      json_loads s = some v →
      recover s = RecoveryOutcome.ok v := by
  intro s v hctl hh hl hb hc hjson
  have h1 : cleanJsonText s = s := by
    unfold cleanJsonText
    rw [stripControl_id hctl, boundaryTrim_id hh hl]
  have h2 : repairCommonCorruption s = s := repairCommonCorruption_id hb hc
  simp only [recover, h1, h2, hjson]

/-- Witness for the amended C1 at the clean object `{"a": 1}`. -/
theorem recover_identity_on_clean_objects_witness :
    ("\x7b\"a\": 1\x7d".toList).all (fun c => !isCtrlChar c) = true ∧
    json_loads ("\x7b\"a\": 1\x7d".toList) =
      some (JVal.obj [(['a'], JVal.num ['1'])]) ∧
    recover ("\x7b\"a\": 1\x7d".toList) =
      RecoveryOutcome.ok (JVal.obj [(['a'], JVal.num ['1'])]) :=
  ⟨by decide, rfl,
    recover_identity_on_clean_objects _ _ (by decide) rfl rfl (by decide) (by decide) rfl⟩

/-- Claim C4 counterexample: stage-2 trimming does not use the array
delimiters.  On `x[1]y` the claim's trimming would return `[1]`, but
`_clean_json_text` (which looks only for `'}'` and `'{'`) leaves the text
unchanged. -/
theorem boundaryTrim_cex :
    claimedBoundaryTrim ("x[1]y".toList) = "[1]".toList ∧
    boundaryTrim ("x[1]y".toList) = "x[1]y".toList ∧
    "x[1]y".toList ≠ "[1]".toList :=
  ⟨rfl, rfl, by decide⟩

/-- Claim C4 amended: stage-2 trimming truncates the text after its last
`'}'` when one exists, then removes everything before the first `'{'` of the
truncated text; `'['` and `']'` play no role, and the stage is a no-op when
the text contains neither a `'}'` nor a `'{'`. -/
theorem boundaryTrim_amended :
    ∀ (s : List Char),
      boundaryTrim s = amendedBoundaryTrim s ∧
      (lastIdx (fun c => c = '}') s = none →
        firstIdx (fun c => c = '{') s = none →
        boundaryTrim s = s) := by
  intro s
  constructor
  · simp only [boundaryTrim, amendedBoundaryTrim]
    cases hj : lastIdx (fun c => c = '}') s with
    | none =>
      cases hfi : firstIdx (fun c => c = '{') s with
      | none => simp [hj, hfi]
      | some i =>
        by_cases h0 : 0 < i
        · simp [hj, hfi, h0]
        · have hi0 : i = 0 := by omega
          subst hi0
          simp [hj, hfi]
    | some j =>
      cases hfi : firstIdx (fun c => c = '{') (s.take (j + 1)) with
      | none => simp [hj, hfi]
      | some i =>
        by_cases h0 : 0 < i
        · simp [hj, hfi, h0]
        · have hi0 : i = 0 := by omega
          subst hi0
          simp [hj, hfi]
  · intro hj hfi
    simp [boundaryTrim, hj, hfi]

/-- Witness for the amended C4: a delimiter-free text is left unchanged, and
the restated trimming agrees with the embedded one there. -/
theorem boundaryTrim_amended_witness :
    boundaryTrim ("abc".toList) = amendedBoundaryTrim ("abc".toList) ∧
    boundaryTrim ("abc".toList) = "abc".toList :=
  ⟨(boundaryTrim_amended ("abc".toList)).1,
    (boundaryTrim_amended ("abc".toList)).2 rfl rfl⟩

/-- Claim C7: when the primary parse of the stage-3 repaired text fails, the
rescue stage operates on the stage-2 (boundary-trimmed, control-normalized)
text, not on the repaired text: it extracts the span from the first `'{'`
through the last `'}'` of that stage-2 text and strictly parses it with no
repair rule reapplied — `recover` then behaves exactly like the
spec-modelled `rescueStageSpec` applied to the stage-2 text. -/
theorem rescue_operates_on_stage2_text :
    ∀ (raw : List Char),
      json_loads (repairCommonCorruption (cleanJsonText raw)) = none →
      recover raw = rescueStageSpec (cleanJsonText raw) raw := by
  intro raw hfail
  simp only [recover, rescueStageSpec, hfail]
  rw [← rescueCand_eq_spanSpec]
  cases hm : rescueCand (cleanJsonText raw) with
  | none => rfl
  | some m =>
    have hps : pyRfindSlice m = m := pyRfindSlice_of_getLast (rescueCand_getLast hm)
    show (match json_loads (pyRfindSlice m) with
      | some v => RecoveryOutcome.ok v
      | none => RecoveryOutcome.failed raw) =
      (match json_loads m with
      | some v => RecoveryOutcome.ok v
      | none => RecoveryOutcome.failed raw)
    rw [hps]

/-- Witness for C7: `x{"a":,}` fails the primary parse; `recover` agrees with
the spec-modelled rescue stage on the stage-2 text. -/
theorem rescue_operates_on_stage2_text_witness :
    json_loads (repairCommonCorruption (cleanJsonText ("x\x7b\"a\":,\x7d".toList))) = none ∧
    recover ("x\x7b\"a\":,\x7d".toList) =
      rescueStageSpec (cleanJsonText ("x\x7b\"a\":,\x7d".toList)) ("x\x7b\"a\":,\x7d".toList) :=
  ⟨rfl, rescue_operates_on_stage2_text _ rfl⟩

/-- Claim C8: a recovery that parses to an empty mapping (or empty array) is
a success — `recover` returns it as a document, and the orchestrator records
the category as `true` in the report and persists the empty document. -/
theorem empty_document_is_success :
    (∀ (raw : List Char) (v : JVal), (v = JVal.obj [] ∨ v = JVal.arr []) →
      json_loads (repairCommonCorruption (cleanJsonText raw)) = some v →
      recover raw = RecoveryOutcome.ok v) ∧
    (∀ (transport : String → Option (List Char)) (save : String → JVal → Bool)
       (c label : String) (raw : List Char) (v : JVal),
      (c, label) ∈ careerMapping →
      (v = JVal.obj [] ∨ v = JVal.arr []) →
      transport c = some raw →
      json_loads (repairCommonCorruption (cleanJsonText raw)) = some v →
      save c v = true →
      (label, true) ∈ (crawlAllCareers transport save).report ∧
      (c, v) ∈ (crawlAllCareers transport save).saved) := by
  have hrec : ∀ (raw : List Char) (v : JVal),
      json_loads (repairCommonCorruption (cleanJsonText raw)) = some v →
      recover raw = RecoveryOutcome.ok v := by
    intro raw v h
    simp only [recover, h]
  constructor
  · intro raw v _ h
    exact hrec raw v h
  · intro transport save c label raw v hmem _ ht hjson hsave
    have hfetch : fetchCourseData transport c = some v := by
      simp only [fetchCourseData, ht, hrec raw v hjson]
    exact foldl_crawl_success_mem careerMapping _ hmem hfetch hsave

/-- Witness for C8: a transport that always returns `{}` makes the first
category succeed with the empty document, which is reported `true` and
persisted. -/
theorem empty_document_is_success_witness :
    ("學士班", true) ∈
      (crawlAllCareers (fun _ => some ("\x7b\x7d".toList)) (fun _ _ => true)).report ∧
    ("U", JVal.obj []) ∈
      (crawlAllCareers (fun _ => some ("\x7b\x7d".toList)) (fun _ _ => true)).saved :=
  empty_document_is_success.2 (fun _ => some ("\x7b\x7d".toList)) (fun _ _ => true)
    "U" "學士班" ("\x7b\x7d".toList) (JVal.obj [])
    (by decide) (Or.inl rfl) rfl rfl rfl

/-- Claim C10: a document produced by the rescue stage is always a mapping:
the rescue candidate begins with `'{'` (and ends with `'}'`), so its strict
parse can only be an object — stated for any rescue candidate, and for any
`recover` run that succeeds after the primary parse failed. -/
theorem rescue_success_is_object :
    (∀ (s m : List Char) (v : JVal), rescueCand s = some m →
      json_loads (pyRfindSlice m) = some v → ∃ fs, v = JVal.obj fs) ∧
    (∀ (raw : List Char) (v : JVal),
      json_loads (repairCommonCorruption (cleanJsonText raw)) = none →
      recover raw = RecoveryOutcome.ok v → ∃ fs, v = JVal.obj fs) := by
  have hmain : ∀ (s m : List Char) (v : JVal), rescueCand s = some m →
      json_loads (pyRfindSlice m) = some v → ∃ fs, v = JVal.obj fs := by
    intro s m v hm hj
    rw [pyRfindSlice_of_getLast (rescueCand_getLast hm)] at hj
    exact json_loads_obj_of_brace (rescueCand_head hm) hj
  refine ⟨hmain, ?_⟩
  intro raw v hfail hrec
  simp only [recover, hfail] at hrec
  cases hm : rescueCand (cleanJsonText raw) with
  | none =>
    simp only [hm] at hrec
    exact absurd hrec (by simp)
  | some m =>
    simp only [hm] at hrec
    cases hj : json_loads (pyRfindSlice m) with
    | none =>
      simp only [hj] at hrec
      exact absurd hrec (by simp)
    | some w =>
      simp only [hj] at hrec
      injection hrec with hw
      subst hw
      exact hmain _ _ _ hm hj

/-- Witness for C10: `{"a":1}` is its own rescue candidate and parses to an
object. -/
theorem rescue_success_is_object_witness :
    rescueCand ("\x7b\"a\":1\x7d".toList) = some ("\x7b\"a\":1\x7d".toList) ∧
    json_loads (pyRfindSlice ("\x7b\"a\":1\x7d".toList)) =
      some (JVal.obj [(['a'], JVal.num ['1'])]) ∧
    ∃ fs, JVal.obj [(['a'], JVal.num ['1'])] = JVal.obj fs :=
  ⟨rfl, rfl,
    rescue_success_is_object.1 ("\x7b\"a\":1\x7d".toList) ("\x7b\"a\":1\x7d".toList)
      (JVal.obj [(['a'], JVal.num ['1'])]) rfl rfl⟩
